import Mathlib

/-!
Verification of the quickrefs-index tool (src/quickrefs_index.py).

Lines and file contents are shallowly embedded as lists of characters
(`Line := List Char`).  Python string operations (`rstrip`, `strip`,
`split(":", maxsplit=1)`) are translated to structurally recursive Lean
functions over `Line`.  The three regular expressions used by `parse_file`
(all of the form: literal head, lazy any-but-newline body, literal tail)
are embedded by `findall`, implemented with an explicit fuel argument of
`length + 1` so that it is structurally recursive and kernel-evaluable;
each scanning step consumes at least one character of the remaining input,
so the fuel never runs out.

Fallible operations (the `when, what = dl.split(":", maxsplit=1)` unpacking
that can raise `ValueError`, and `pydantic` validation) are embedded with
`Option`: a `none` result models the Python exception propagating out of
the function.  `parse_file` mutates its index argument in place in Python;
it is embedded as a function from the incoming index to the resulting
index, returning `none` when the scan raises (in which case the partially
mutated index is discarded by the crashing `build` command and is
unobservable).
-/

/-- A line (or any Python string) as a list of characters. -/
abbrev Line := List Char

/-- The backtick character, U+0060. -/
def btick : Char := Char.ofNat 96

/-- The apostrophe character, U+0027. -/
def apos : Char := Char.ofNat 39

/-- Whitespace characters stripped by Python `str.strip` / `str.rstrip`
(ASCII space, tab, newline, carriage return, vertical tab, form feed). -/
def pyIsSpace (c : Char) : Bool :=
  c == ' ' || c == '\t' || c == '\n' || c == '\r' ||
    c == Char.ofNat 11 || c == Char.ofNat 12

/-- Python `str.rstrip()`: remove trailing whitespace. -/
def rstrip (l : Line) : Line := (l.reverse.dropWhile pyIsSpace).reverse

/-- Python `str.lstrip()`: remove leading whitespace. -/
def lstrip (l : Line) : Line := l.dropWhile pyIsSpace

/-- Python `str.strip()`: remove leading and trailing whitespace. -/
def strip (l : Line) : Line := lstrip (rstrip l)

/-- `HEADING_CHARS = set("= - ` ' . ~ * + ^".split())` from the source. -/
def HEADING_CHARS : Line := ['=', '-', btick, apos, '.', '~', '*', '+', '^']

/-- Translation of `is_heading(curl, nextl)` from the source: both lines are
right-stripped, the current line must have length at least 3 and the same
length as the next line, and the next line must be its own first character
repeated to its full length, that character being one of `HEADING_CHARS`.
The `[]` case of the match is unreachable (equal lengths force the stripped
next line to be nonempty there). -/
def is_heading (curl nextl : Line) : Bool :=
  let c := rstrip curl
  let n := rstrip nextl
  if c.length < 3 then false
  else if c.length != n.length then false
  else
    match n with
    | [] => false
    | ch :: _ =>
      if !(HEADING_CHARS.contains ch) then false
      else n == List.replicate n.length ch

/-- Lazy-body matching for a regex fragment `(.*?)suf` at the start of `s`:
returns the shortest newline-free body such that `suf` follows it, together
with the input remaining after `suf`, or `none` when no such body exists. -/
def matchLazy (suf : Line) : Line → Option (Line × Line)
  | [] => if suf.isPrefixOf [] then some ([], ([] : Line).drop suf.length) else none
  | c :: cs =>
    if suf.isPrefixOf (c :: cs) then some ([], (c :: cs).drop suf.length)
    else if c == '\n' then none
    else (matchLazy suf cs).map fun br => (c :: br.1, br.2)

/-- Worker for `findall` with explicit fuel.  At each position either the
pattern `pre ++ lazy-body ++ suf` matches (and scanning resumes after the
whole match, as Python `re.findall` does for non-overlapping matches) or
scanning advances one character. -/
def findallAux : Nat → Line → Line → Line → List Line
  | 0, _, _, _ => []
  | fuel + 1, pre, suf, s =>
    match s with
    | [] => []
    | c :: cs =>
      if pre.isPrefixOf (c :: cs) then
        match matchLazy suf ((c :: cs).drop pre.length) with
        | some br => br.1 :: findallAux fuel pre suf br.2
        | none => findallAux fuel pre suf cs
      else findallAux fuel pre suf cs

/-- Python `re.findall` for a pattern of the form `pre(.*?)suf` where `pre`
and `suf` are literals (this covers the three patterns of `parse_file`).
Every step consumes at least one character (`pre` is nonempty for all three
patterns), so fuel `s.length + 1` is never exhausted. -/
def findall (pre suf s : Line) : List Line := findallAux (s.length + 1) pre suf s

/-- The literal head of `ref_pattern = re.compile(r"`(.*?)`_")`. -/
def refPre : Line := [btick]

/-- The literal tail of `ref_pattern`. -/
def refSuf : Line := [btick, '_']

/-- The literal head of `dl_pattern = re.compile(r":deadline:`(.*?)`")`. -/
def dlPre : Line := (":deadline:").data ++ [btick]

/-- The literal tail of `dl_pattern`. -/
def dlSuf : Line := [btick]

/-- The literal head of `todo_pattern = re.compile(r":todo:`(.*?)`")`. -/
def todoPre : Line := (":todo:").data ++ [btick]

/-- The literal tail of `todo_pattern`. -/
def todoSuf : Line := [btick]

/-- Python `s.split(":", maxsplit=1)` restricted to the two-part case used by
`parse_file`: splits at the first colon; `none` models the `ValueError` raised
by the unpacking `when, what = dl.split(":", maxsplit=1)` when there is no
colon. -/
def splitFirstColon : Line → Option (Line × Line)
  | [] => none
  | c :: cs =>
    if c == ':' then some ([], cs)
    else (splitFirstColon cs).map fun p => (c :: p.1, p.2)

/-- The `Heading` pydantic model from the source.  `level` holds the single
underline character (a one-character string in Python). -/
structure Heading where
  file : Line
  line : Nat
  heading : Line
  level : Char
deriving DecidableEq

/-- The `Reference` pydantic model.  The Python field name `section` is a Lean
keyword, so it is called `sec` here. -/
structure Reference where
  file : Line
  line : Nat
  reference : Line
  sec : Option Heading
deriving DecidableEq

/-- The `Deadline` pydantic model (`section` renamed to `sec`). -/
structure Deadline where
  file : Line
  line : Nat
  what : Line
  when : Line
  sec : Option Heading
deriving DecidableEq

/-- The `Todo` pydantic model (`section` renamed to `sec`). -/
structure Todo where
  file : Line
  line : Nat
  what : Line
  sec : Option Heading
deriving DecidableEq

/-- The `Index` pydantic model: four ordered record lists. -/
structure Index where
  headings : List Heading
  references : List Reference
  deadlines : List Deadline
  todos : List Todo
deriving DecidableEq

/-- `Index()` with the default (empty) factories. -/
def Index.empty : Index := ⟨[], [], [], []⟩

/-- Traverse a list with a fallible function, failing at the first `none`;
models a Python loop that appends one converted element at a time and may
raise partway (the partial output is discarded on failure). -/
def mapOpt : List α → (α → Option β) → Option (List β)
  | [], _ => some []
  | a :: l, f =>
    match f a with
    | none => none
    | some b => (mapOpt l f).map fun bs => b :: bs

/-- The body of the `for dl in dl_pattern.findall(curl)` loop: split the
captured text at the first colon, strip both parts, and build a `Deadline`.
`none` models the `ValueError` on a captured text without a colon. -/
def mkDeadline (file : Line) (i : Nat) (cur : Option Heading) (m : Line) :
    Option Deadline :=
  (splitFirstColon m).map fun p => ⟨file, i, strip p.2, strip p.1, cur⟩

/-- Scanning of one non-heading current line by `parse_file`: find and append
all references, then all deadlines (which can fail), then all todos, each
with `section = cur_heading`. -/
def scanLine (file : Line) (i : Nat) (cur : Option Heading) (curl : Line)
    (idx : Index) : Option Index :=
  let refs := (findall refPre refSuf curl).map
    fun r => Reference.mk file i (strip r) cur
  match mapOpt (findall dlPre dlSuf curl) (mkDeadline file i cur) with
  | none => none
  | some dls =>
    let tds := (findall todoPre todoSuf curl).map
      fun t => Todo.mk file i (strip t) cur
    some { idx with
            references := idx.references ++ refs,
            deadlines := idx.deadlines ++ dls,
            todos := idx.todos ++ tds }

/-- The `for i, (curl, nextl) in enumerate(pairwise(fobj), 1)` loop of
`parse_file`, with the 1-based line counter `i` and the `cur_heading` context
made explicit.  A heading pair appends a `Heading` built from the stripped
current line and the first character of the raw next line, updates the
context, and (`continue`) skips annotation scanning for that line; any other
pair scans the current line.  The `headD` default is unreachable: `is_heading`
forces the next line to be nonempty. -/
def parseFileFrom (file : Line) : Nat → Option Heading → List Line → Index →
    Option Index
  | i, cur, curl :: nextl :: rest, idx =>
    if is_heading curl nextl then
      let h : Heading := ⟨file, i, strip curl, nextl.headD ' '⟩
      parseFileFrom file (i + 1) (some h) (nextl :: rest)
        { idx with headings := idx.headings ++ [h] }
    else
      match scanLine file i cur curl idx with
      | none => none
      | some idx2 => parseFileFrom file (i + 1) cur (nextl :: rest) idx2
  | _, _, _, idx => some idx

/-- `parse_file(file, index)` from the source, with the file's lines passed
explicitly: line pairs are scanned starting at line number 1 with no current
heading.  `none` models a `ValueError` escaping the scan. -/
def parse_file (file : Line) (ls : List Line) (idx : Index) : Option Index :=
  parseFileFrom file 1 none ls idx

/-- Modelled from the spec: the JSON documents produced and consumed by the
pydantic (external library) serialization used by `Index.save` and
`Index.load` — "a single JSON document with top-level keys `headings`,
`references`, `deadlines`, `todos`, each an ordered array of objects matching
the respective record shape; `section`, when present, is a nested Heading
object; when absent, is represented as a JSON null". -/
inductive Jsn where
  | null : Jsn
  | num : Nat → Jsn
  | str : Line → Jsn
  | arr : List Jsn → Jsn
  | obj : List (Line × Jsn) → Jsn

/-- Look up a key in a JSON object's field list. -/
def jGet : List (Line × Jsn) → Line → Option Jsn
  | [], _ => none
  | (k2, v) :: rest, k => if k2 = k then some v else jGet rest k

/-- Expect a JSON string. -/
def jStr : Jsn → Option Line
  | .str s => some s
  | _ => none

/-- Expect a JSON number. -/
def jNum : Jsn → Option Nat
  | .num n => some n
  | _ => none

/-- Expect a JSON array. -/
def jArr : Jsn → Option (List Jsn)
  | .arr xs => some xs
  | _ => none

/-- Modelled from the spec: serialization of a `Heading` record, "field names
as given: `file`, `line`, `heading`, `level`". -/
def Heading.toJ (h : Heading) : Jsn :=
  .obj [(("file").data, .str h.file), (("line").data, .num h.line),
        (("heading").data, .str h.heading), (("level").data, .str [h.level])]

/-- Modelled from the spec: serialization of an optional `section` value,
"when absent, is represented as a JSON null". -/
def secToJ : Option Heading → Jsn
  | none => .null
  | some h => h.toJ

/-- Modelled from the spec: serialization of a `Reference` record. -/
def Reference.toJ (r : Reference) : Jsn :=
  .obj [(("file").data, .str r.file), (("line").data, .num r.line),
        (("reference").data, .str r.reference), (("section").data, secToJ r.sec)]

/-- Modelled from the spec: serialization of a `Deadline` record. -/
def Deadline.toJ (d : Deadline) : Jsn :=
  .obj [(("file").data, .str d.file), (("line").data, .num d.line),
        (("what").data, .str d.what), (("when").data, .str d.when),
        (("section").data, secToJ d.sec)]

/-- Modelled from the spec: serialization of a `Todo` record. -/
def Todo.toJ (t : Todo) : Jsn :=
  .obj [(("file").data, .str t.file), (("line").data, .num t.line),
        (("what").data, .str t.what), (("section").data, secToJ t.sec)]

/-- Modelled from the spec: `model_dump_json` for the `Index` aggregate. -/
def Index.dumpJson (idx : Index) : Jsn :=
  .obj [(("headings").data, .arr (idx.headings.map Heading.toJ)),
        (("references").data, .arr (idx.references.map Reference.toJ)),
        (("deadlines").data, .arr (idx.deadlines.map Deadline.toJ)),
        (("todos").data, .arr (idx.todos.map Todo.toJ))]

/-- Modelled from the spec: validation of a serialized `Heading`; fails
(`none`, modelling a pydantic `ValidationError`) on any shape mismatch. -/
def Heading.ofJ : Jsn → Option Heading
  | .obj fs => do
    let f ← jGet fs (("file").data) >>= jStr
    let ln ← jGet fs (("line").data) >>= jNum
    let hd ← jGet fs (("heading").data) >>= jStr
    let lv ← jGet fs (("level").data) >>= jStr
    match lv with
    | [c] => some ⟨f, ln, hd, c⟩
    | _ => none
  | _ => none

/-- Modelled from the spec: validation of an optional `section` value. -/
def secOfJ : Jsn → Option (Option Heading)
  | .null => some none
  | j => (Heading.ofJ j).map some

/-- Modelled from the spec: validation of a serialized `Reference`. -/
def Reference.ofJ : Jsn → Option Reference
  | .obj fs => do
    let f ← jGet fs (("file").data) >>= jStr
    let ln ← jGet fs (("line").data) >>= jNum
    let rf ← jGet fs (("reference").data) >>= jStr
    let sc ← jGet fs (("section").data) >>= secOfJ
    some ⟨f, ln, rf, sc⟩
  | _ => none

/-- Modelled from the spec: validation of a serialized `Deadline`. -/
def Deadline.ofJ : Jsn → Option Deadline
  | .obj fs => do
    let f ← jGet fs (("file").data) >>= jStr
    let ln ← jGet fs (("line").data) >>= jNum
    let wt ← jGet fs (("what").data) >>= jStr
    let wn ← jGet fs (("when").data) >>= jStr
    let sc ← jGet fs (("section").data) >>= secOfJ
    some ⟨f, ln, wt, wn, sc⟩
  | _ => none

/-- Modelled from the spec: validation of a serialized `Todo`. -/
def Todo.ofJ : Jsn → Option Todo
  | .obj fs => do
    let f ← jGet fs (("file").data) >>= jStr
    let ln ← jGet fs (("line").data) >>= jNum
    let wt ← jGet fs (("what").data) >>= jStr
    let sc ← jGet fs (("section").data) >>= secOfJ
    some ⟨f, ln, wt, sc⟩
  | _ => none

/-- Modelled from the spec: `model_validate_json` for the `Index` aggregate;
`none` models a pydantic `ValidationError` on content that is not a valid
serialized `Index`. -/
def Index.validateJson : Jsn → Option Index
  | .obj fs => do
    let hjs ← jGet fs (("headings").data) >>= jArr
    let hs ← mapOpt hjs Heading.ofJ
    let rjs ← jGet fs (("references").data) >>= jArr
    let rs ← mapOpt rjs Reference.ofJ
    let djs ← jGet fs (("deadlines").data) >>= jArr
    let ds ← mapOpt djs Deadline.ofJ
    let tjs ← jGet fs (("todos").data) >>= jArr
    let ts ← mapOpt tjs Todo.ofJ
    some ⟨hs, rs, ds, ts⟩
  | _ => none

/-- A file system, as `Index.save` / `Index.load` observe it: each path maps
to the JSON document stored there, or to `none` when reading that path raises
`OSError` (file missing, unreadable, permission denied). -/
abbrev FS := Line → Option Jsn

/-- `Index.save`: `fname.write_text(self.model_dump_json())` — overwrite the
file at `fname` with the serialized index. -/
def Index.save (idx : Index) (fname : Line) (fs : FS) : FS :=
  fun q => if q = fname then some idx.dumpJson else fs q

/-- What a call to `Index.load` does, as observed by the caller and the error
stream: either the method returns an `Index` (`diag` records whether the
`Error opening ...` diagnostic was printed to `sys.stderr` on the way), or a
validation error propagates out of it. -/
inductive LoadOutcome where
  | returned : Index → (diag : Bool) → LoadOutcome
  | validationError : LoadOutcome
deriving DecidableEq

/-- `Index.load`: try to read and validate the file.  An `OSError` from
`read_text` (modelled by `fs fname = none`) is caught: a diagnostic is printed
and an empty `Index` is returned.  A validation failure on successfully read
content is not caught and propagates. -/
def Index.load (fname : Line) (fs : FS) : LoadOutcome :=
  match fs fname with
  | none => .returned Index.empty true
  | some j =>
    match Index.validateJson j with
    | some idx => .returned idx false
    | none => .validationError

/-- The tab character used by the jumplist output format. -/
def tabCh : Char := '\t'

/-- Decimal rendering of a line number, as Python string interpolation does. -/
def natLine (n : Nat) : Line := (Nat.repr n).data

/-- `jump_to_heading`: for every stored heading whose text equals the given
heading text, echo `f"{h.file}\t{h.line}"`; the command's standard output is
modelled as the list of echoed lines in order. -/
def jump_to_heading (heading : Line) (idx : Index) : List Line :=
  idx.headings.foldl
    (fun out h =>
      if heading == h.heading then out ++ [h.file ++ tabCh :: natLine h.line]
      else out)
    []

/-- `heading_jumplist`: echo `f"{h.heading}\t{fname}\t{line}"` for every
stored heading whose `level` is `"="` or `"-"`, where `fname` and `line` are
the file and line number wrapped by `click.style` (the styling functions `sy`
and `sg` are kept abstract: the claims do not depend on ANSI escapes). -/
def heading_jumplist (sg sy : Line → Line) (idx : Index) : List Line :=
  idx.headings.foldl
    (fun out h =>
      let line := sg (natLine h.line)
      let fname := sy h.file
      if h.level == '=' || h.level == '-' then
        out ++ [h.heading ++ tabCh :: (fname ++ tabCh :: line)]
      else out)
    []

/-- `print_all_headings`: echo `h.heading` for every stored heading whose
`level` is `"="` or `"-"`. -/
def print_all_headings (idx : Index) : List Line :=
  idx.headings.foldl
    (fun out h =>
      if h.level == '=' || h.level == '-' then out ++ [h.heading] else out)
    []

/-- Comparison of key-decorated deadlines by their sort key, as
`sorted(index.deadlines, key=lambda h: parse(h.when))` compares parsed
dates. -/
def keyLe (a b : Nat × Deadline) : Prop := a.1 ≤ b.1

instance : DecidableRel keyLe := fun a b => Nat.decLe a.1 b.1

instance : IsTotal (Nat × Deadline) keyLe := ⟨fun a b => Nat.le_total a.1 b.1⟩

instance : IsTrans (Nat × Deadline) keyLe :=
  ⟨fun _ _ _ hab hbc => Nat.le_trans hab hbc⟩

/-- `deadline_jumplist`, modelled from the spec for the date semantics: the
external `dateutil.parser.parse` is abstracted as a function `p` from the raw
`when` text to an optional value in a linear order (`none` models a date
parse failure, which is fatal for the command).  As CPython's `sorted` with a
`key` does, every element is first decorated with its key (failing the whole
command if any key computation raises), the decorated list is stably sorted
ascending by key, and the keys are dropped again.  The command's output is
modelled as the sequence of deadline records echoed, in order. -/
def deadline_jumplist (p : Line → Option Nat) (idx : Index) :
    Option (List Deadline) :=
  match mapOpt idx.deadlines (fun d => (p d.when).map fun n => (n, d)) with
  | none => none
  | some kds => some ((List.insertionSort keyLe kds).map Prod.snd)

/-- `Option` fallback: the first value when present, otherwise the second. -/
def opOr (a b : Option α) : Option α :=
  match a with
  | some x => some x
  | none => b

/-- The invariant of scanned records tracked through `parseFileFrom`: every
record of the delta list `dR` belongs to the scanned file, its line number is
between the starting line `i` and the second-to-last scanned line, and its
section is the most recently appended heading of the delta `dH` with a
strictly smaller line number, falling back to the heading context `cur` that
was current when scanning started at line `i`. -/
def RecsOK {ρ : Type} (fileOf : ρ → Line) (lineOf : ρ → Nat)
    (secOf : ρ → Option Heading) (file : Line) (i n : Nat)
    (dH : List Heading) (cur : Option Heading) (dR : List ρ) : Prop :=
  ∀ r ∈ dR, fileOf r = file ∧ i ≤ lineOf r ∧ lineOf r + 2 ≤ n ∧
    secOf r = opOr ((dH.filter fun h => h.line < lineOf r).getLast?) cur

/-- The scanned current lines on which `parse_file` runs annotation matching:
for each consecutive pair, the current line when the pair is not detected as a
heading.  `anyBadScannedLine` holds when some such line has a deadline match
whose captured text contains no colon. -/
def anyBadScannedLine : List Line → Bool
  | curl :: nextl :: rest =>
    ((!is_heading curl nextl) &&
      (findall dlPre dlSuf curl).any fun m => !(m.contains ':'))
      || anyBadScannedLine (nextl :: rest)
  | _ => false

lemma opOr_none (a : Option α) : opOr a none = a := by
  cases a <;> rfl

lemma opOr_absorb (a : Option α) (x : α) (b : Option α) :
    opOr (opOr a (some x)) b = opOr a (some x) := by
  cases a <;> rfl

lemma getLast?_cons_eq_opOr (a : α) (l : List α) :
    (a :: l).getLast? = opOr l.getLast? (some a) := by
  cases l with
  | nil => rfl
  | cons b t =>
    rw [List.getLast?_cons_cons]
    have hs : (b :: t).getLast?.isSome := by
      rw [List.getLast?_isSome]
      simp
    cases heq : (b :: t).getLast? with
    | none => rw [heq] at hs; simp at hs
    | some x => simp [opOr]

lemma mem_of_getLast? {l : List α} {a : α} (h : l.getLast? = some a) : a ∈ l := by
  obtain ⟨ys, rfl⟩ := List.getLast?_eq_some_iff.mp h
  simp

lemma foldl_echo {α β : Type _} (p : α → Bool) (f : α → β) :
    ∀ (l : List α) (acc : List β),
      l.foldl (fun out x => if p x then out ++ [f x] else out) acc
        = acc ++ (l.filter p).map f := by
  intro l
  induction l with
  | nil => simp
  | cons a t ih =>
    intro acc
    by_cases h : p a <;> simp [List.filter_cons, h, ih]

lemma mapOpt_eq_none_iff (f : α → Option β) :
    ∀ l : List α, mapOpt l f = none ↔ ∃ a ∈ l, f a = none := by
  intro l
  induction l with
  | nil => simp [mapOpt]
  | cons a t ih =>
    cases h : f a with
    | none =>
      simp only [mapOpt, h]
      exact ⟨fun _ => ⟨a, by simp, h⟩, fun _ => trivial⟩
    | some b =>
      simp only [mapOpt, h, Option.map_eq_none', ih]
      constructor
      · rintro ⟨x, hx, hfx⟩
        exact ⟨x, by simp [hx], hfx⟩
      · rintro ⟨x, hx, hfx⟩
        rcases List.mem_cons.mp hx with rfl | hx
        · rw [h] at hfx; cases hfx
        · exact ⟨x, hx, hfx⟩

lemma mapOpt_mem (f : α → Option β) :
    ∀ (l : List α) (ys : List β), mapOpt l f = some ys →
      ∀ y ∈ ys, ∃ a ∈ l, f a = some y := by
  intro l
  induction l with
  | nil =>
    intro ys h
    simp only [mapOpt, Option.some_inj] at h
    subst h
    simp
  | cons a t ih =>
    intro ys h y hy
    cases hfa : f a with
    | none => simp [mapOpt, hfa] at h
    | some b =>
      cases hmt : mapOpt t f with
      | none => simp [mapOpt, hfa, hmt] at h
      | some bs =>
        simp only [mapOpt, hfa, hmt, Option.map_some', Option.some_inj] at h
        subst h
        rcases List.mem_cons.mp hy with rfl | hy
        · exact ⟨a, by simp, hfa⟩
        · obtain ⟨x, hx, hfx⟩ := ih bs hmt y hy
          exact ⟨x, by simp [hx], hfx⟩

lemma mapOpt_roundtrip (f : β → Option α) (g : α → β) :
    ∀ l : List α, (∀ a ∈ l, f (g a) = some a) → mapOpt (l.map g) f = some l := by
  intro l
  induction l with
  | nil => intro _; rfl
  | cons a t ih =>
    intro h
    have ha := h a (by simp)
    have ht := ih fun x hx => h x (by simp [hx])
    simp [mapOpt, ha, ht]

lemma splitFirstColon_eq_none_iff :
    ∀ m : Line, splitFirstColon m = none ↔ (':') ∉ m := by
  intro m
  induction m with
  | nil => simp [splitFirstColon]
  | cons c cs ih =>
    by_cases h : c = ':'
    · subst h
      simp [splitFirstColon]
    · simp only [splitFirstColon, beq_iff_eq, if_neg h, Option.map_eq_none', ih,
        List.mem_cons]
      constructor
      · intro hn hor
        rcases hor with hca | hm
        · exact h hca.symm
        · exact hn hm
      · intro hn hm
        exact hn (Or.inr hm)

lemma splitFirstColon_first (post : Line) :
    ∀ pre : Line, (':') ∉ pre →
      splitFirstColon (pre ++ (':') :: post) = some (pre, post) := by
  intro pre
  induction pre with
  | nil => intro _; simp [splitFirstColon]
  | cons c cs ih =>
    intro h
    have hc : ¬(c = ':') := fun hcc => h (by simp [hcc])
    have hcs : (':') ∉ cs := fun hm => h (by simp [hm])
    simp [splitFirstColon, hc, ih hcs]

lemma mkDeadline_eq_none_iff (file : Line) (i : Nat) (cur : Option Heading)
    (m : Line) : mkDeadline file i cur m = none ↔ (':') ∉ m := by
  rw [mkDeadline, Option.map_eq_none', splitFirstColon_eq_none_iff]

lemma mkDeadline_shape {file : Line} {i : Nat} {cur : Option Heading} {m : Line}
    {d : Deadline} (h : mkDeadline file i cur m = some d) :
    d.file = file ∧ d.line = i ∧ d.sec = cur := by
  rw [mkDeadline, Option.map_eq_some'] at h
  obtain ⟨p, _, rfl⟩ := h
  exact ⟨rfl, rfl, rfl⟩

lemma scanLine_eq_none_iff (file : Line) (i : Nat) (cur : Option Heading)
    (curl : Line) (idx : Index) :
    scanLine file i cur curl idx = none ↔
      ∃ m ∈ findall dlPre dlSuf curl, (':') ∉ m := by
  cases hm : mapOpt (findall dlPre dlSuf curl) (mkDeadline file i cur) with
  | none =>
    simp only [scanLine, hm]
    rw [mapOpt_eq_none_iff] at hm
    obtain ⟨m, hmem, hnone⟩ := hm
    exact ⟨fun _ => ⟨m, hmem, (mkDeadline_eq_none_iff file i cur m).mp hnone⟩,
      fun _ => trivial⟩
  | some dls =>
    simp only [scanLine, hm]
    constructor
    · intro hcontra
      cases hcontra
    · rintro ⟨m, hmem, hnc⟩
      have : mapOpt (findall dlPre dlSuf curl) (mkDeadline file i cur) = none :=
        (mapOpt_eq_none_iff _ _).mpr
          ⟨m, hmem, (mkDeadline_eq_none_iff file i cur m).mpr hnc⟩
      rw [hm] at this
      cases this

lemma scanLine_some {file : Line} {i : Nat} {cur : Option Heading} {curl : Line}
    {idx idx2 : Index} (h : scanLine file i cur curl idx = some idx2) :
    ∃ sR sD sT,
      idx2.headings = idx.headings ∧
      idx2.references = idx.references ++ sR ∧
      idx2.deadlines = idx.deadlines ++ sD ∧
      idx2.todos = idx.todos ++ sT ∧
      (∀ r ∈ sR, r.file = file ∧ r.line = i ∧ r.sec = cur) ∧
      (∀ d ∈ sD, d.file = file ∧ d.line = i ∧ d.sec = cur) ∧
      (∀ t ∈ sT, t.file = file ∧ t.line = i ∧ t.sec = cur) := by
  cases hm : mapOpt (findall dlPre dlSuf curl) (mkDeadline file i cur) with
  | none =>
    simp only [scanLine, hm] at h
    cases h
  | some dls =>
    simp only [scanLine, hm, Option.some_inj] at h
    subst h
    refine ⟨_, dls, _, rfl, rfl, rfl, rfl, ?_, ?_, ?_⟩
    · intro r hr
      obtain ⟨m, _, rfl⟩ := List.mem_map.mp hr
      exact ⟨rfl, rfl, rfl⟩
    · intro d hd
      obtain ⟨m, _, hmk⟩ := mapOpt_mem _ _ _ hm d hd
      exact mkDeadline_shape hmk
    · intro t ht
      obtain ⟨m, _, rfl⟩ := List.mem_map.mp ht
      exact ⟨rfl, rfl, rfl⟩

lemma RecsOK.heading_step {ρ : Type} {fileOf : ρ → Line} {lineOf : ρ → Nat}
    {secOf : ρ → Option Heading} {file : Line} {i n : Nat} {dH : List Heading}
    {cur : Option Heading} {dR : List ρ} (h0 : Heading) (hline : h0.line = i)
    (hOK : RecsOK fileOf lineOf secOf file (i + 1) n dH (some h0) dR) :
    RecsOK fileOf lineOf secOf file i n (h0 :: dH) cur dR := by
  intro r hr
  obtain ⟨hf, hi, hn, hs⟩ := hOK r hr
  refine ⟨hf, by omega, hn, ?_⟩
  have hlt : h0.line < lineOf r := by omega
  rw [List.filter_cons, if_pos (by simpa using hlt), getLast?_cons_eq_opOr,
    opOr_absorb]
  exact hs

lemma RecsOK.scan_step {ρ : Type} {fileOf : ρ → Line} {lineOf : ρ → Nat}
    {secOf : ρ → Option Heading} {file : Line} {i n : Nat} {dH : List Heading}
    {cur : Option Heading} {sR dR : List ρ}
    (hH : ∀ h ∈ dH, i + 1 ≤ h.line)
    (hnew : ∀ r ∈ sR, fileOf r = file ∧ lineOf r = i ∧ secOf r = cur)
    (hn2 : i + 2 ≤ n)
    (hOK : RecsOK fileOf lineOf secOf file (i + 1) n dH cur dR) :
    RecsOK fileOf lineOf secOf file i n dH cur (sR ++ dR) := by
  intro r hr
  rcases List.mem_append.mp hr with hr | hr
  · obtain ⟨hf, hl, hs⟩ := hnew r hr
    refine ⟨hf, by omega, by omega, ?_⟩
    have hnil : dH.filter (fun h => h.line < lineOf r) = [] := by
      rw [List.filter_eq_nil_iff]
      intro h hh
      have := hH h hh
      simp only [decide_eq_true_eq]
      omega
    rw [hnil]
    exact hs
  · obtain ⟨hf, hi, hn, hs⟩ := hOK r hr
    exact ⟨hf, by omega, hn, hs⟩

/-- Main invariant of the scanning loop: a successful run of `parseFileFrom`
only appends to the four record lists; the appended headings carry the
scanned file and line numbers in range, and every appended reference,
deadline and todo is associated (`sec`) with the latest appended heading
before its line, falling back to the incoming context. -/
lemma parse_inv :
    ∀ (ls : List Line) (file : Line) (i n : Nat) (cur : Option Heading)
      (idx idx' : Index),
      i + ls.length ≤ n →
      parseFileFrom file i cur ls idx = some idx' →
      ∃ dH dR dD dT,
        idx'.headings = idx.headings ++ dH ∧
        idx'.references = idx.references ++ dR ∧
        idx'.deadlines = idx.deadlines ++ dD ∧
        idx'.todos = idx.todos ++ dT ∧
        (∀ h ∈ dH, h.file = file ∧ i ≤ h.line ∧ h.line + 2 ≤ n) ∧
        RecsOK Reference.file Reference.line Reference.sec file i n dH cur dR ∧
        RecsOK Deadline.file Deadline.line Deadline.sec file i n dH cur dD ∧
        RecsOK Todo.file Todo.line Todo.sec file i n dH cur dT := by
  intro ls
  induction ls with
  | nil =>
    intro file i n cur idx idx' _ h
    simp only [parseFileFrom, Option.some_inj] at h
    subst h
    exact ⟨[], [], [], [], by simp, by simp, by simp, by simp, by simp,
      fun r hr => absurd hr (List.not_mem_nil r),
      fun d hd => absurd hd (List.not_mem_nil d),
      fun t ht => absurd ht (List.not_mem_nil t)⟩
  | cons curl t ih =>
    intro file i n cur idx idx' hn h
    cases t with
    | nil =>
      simp only [parseFileFrom, Option.some_inj] at h
      subst h
      exact ⟨[], [], [], [], by simp, by simp, by simp, by simp, by simp,
        fun r hr => absurd hr (List.not_mem_nil r),
        fun d hd => absurd hd (List.not_mem_nil d),
        fun t ht => absurd ht (List.not_mem_nil t)⟩
    | cons nextl rest =>
      simp only [parseFileFrom] at h
      by_cases hih : is_heading curl nextl
      · rw [if_pos hih] at h
        set h0 : Heading := ⟨file, i, strip curl, nextl.headD ' '⟩ with hh0
        have hn' : (i + 1) + (nextl :: rest).length ≤ n := by
          simp only [List.length_cons] at hn ⊢
          omega
        obtain ⟨dH, dR, dD, dT, e1, e2, e3, e4, hH, hR, hD, hT⟩ :=
          ih file (i + 1) n (some h0) _ _ hn' h
        refine ⟨h0 :: dH, dR, dD, dT, ?_, e2, e3, e4, ?_, ?_, ?_, ?_⟩
        · rw [e1]
          simp
        · intro h' hh'
          rcases List.mem_cons.mp hh' with rfl | hh'
          · refine ⟨rfl, Nat.le_refl _, ?_⟩
            simp only [List.length_cons] at hn
            show i + 2 ≤ n
            omega
          · obtain ⟨hf, hi, hb⟩ := hH h' hh'
            exact ⟨hf, by omega, hb⟩
        · exact RecsOK.heading_step h0 rfl hR
        · exact RecsOK.heading_step h0 rfl hD
        · exact RecsOK.heading_step h0 rfl hT
      · rw [if_neg hih] at h
        cases hs : scanLine file i cur curl idx with
        | none => rw [hs] at h; cases h
        | some idx2 =>
          rw [hs] at h
          obtain ⟨sR, sD, sT, f1, f2, f3, f4, hsR, hsD, hsT⟩ := scanLine_some hs
          have hn' : (i + 1) + (nextl :: rest).length ≤ n := by
            simp only [List.length_cons] at hn ⊢
            omega
          obtain ⟨dH, dR, dD, dT, e1, e2, e3, e4, hH, hR, hD, hT⟩ :=
            ih file (i + 1) n cur _ _ hn' h
          have hn2 : i + 2 ≤ n := by
            simp only [List.length_cons] at hn
            omega
          have hHmin : ∀ h' ∈ dH, i + 1 ≤ h'.line := fun h' hh' => (hH h' hh').2.1
          refine ⟨dH, sR ++ dR, sD ++ dD, sT ++ dT, ?_, ?_, ?_, ?_, ?_, ?_, ?_, ?_⟩
          · rw [e1, f1]
          · rw [e2, f2, List.append_assoc]
          · rw [e3, f3, List.append_assoc]
          · rw [e4, f4, List.append_assoc]
          · intro h' hh'
            obtain ⟨hf, hi, hb⟩ := hH h' hh'
            exact ⟨hf, by omega, hb⟩
          · exact RecsOK.scan_step hHmin hsR hn2 hR
          · exact RecsOK.scan_step hHmin hsD hn2 hD
          · exact RecsOK.scan_step hHmin hsT hn2 hT

lemma any_bad_iff (curl : Line) :
    (((findall dlPre dlSuf curl).any fun m => !(m.contains ':')) = true) ↔
      ∃ m ∈ findall dlPre dlSuf curl, (':') ∉ m := by
  rw [List.any_eq_true]
  constructor
  · rintro ⟨m, hm, hb⟩
    refine ⟨m, hm, ?_⟩
    simpa using hb
  · rintro ⟨m, hm, hb⟩
    refine ⟨m, hm, ?_⟩
    simpa using hb

lemma parseFrom_none_iff :
    ∀ (ls : List Line) (file : Line) (i : Nat) (cur : Option Heading)
      (idx : Index),
      parseFileFrom file i cur ls idx = none ↔ anyBadScannedLine ls = true := by
  intro ls
  induction ls with
  | nil =>
    intro file i cur idx
    simp [parseFileFrom, anyBadScannedLine]
  | cons curl t ih =>
    intro file i cur idx
    cases t with
    | nil => simp [parseFileFrom, anyBadScannedLine]
    | cons nextl rest =>
      simp only [parseFileFrom, anyBadScannedLine]
      by_cases hih : is_heading curl nextl
      · rw [if_pos hih, hih]
        simp only [Bool.not_true, Bool.false_and, Bool.false_or]
        exact ih file (i + 1) _ _
      · rw [if_neg hih]
        cases hs : scanLine file i cur curl idx with
        | none =>
          have hbad := (scanLine_eq_none_iff file i cur curl idx).mp hs
          constructor
          · intro _
            rw [Bool.or_eq_true]
            left
            rw [Bool.and_eq_true]
            exact ⟨by simp [hih], (any_bad_iff curl).mpr hbad⟩
          · intro _
            rfl
        | some idx2 =>
          have hgood : ((findall dlPre dlSuf curl).any fun m => !(m.contains ':'))
              = false := by
            rw [Bool.eq_false_iff]
            intro hany
            have : scanLine file i cur curl idx = none :=
              (scanLine_eq_none_iff file i cur curl idx).mpr
                ((any_bad_iff curl).mp hany)
            rw [hs] at this
            cases this
          rw [hgood]
          simp only [Bool.and_false, Bool.false_or]
          exact ih file (i + 1) _ _

lemma is_heading_ne_nil {curl nextl : Line} (h : is_heading curl nextl = true) :
    ∃ c cs, nextl = c :: cs := by
  cases nextl with
  | nil =>
    exfalso
    simp only [is_heading] at h
    split at h
    · cases h
    · split at h
      · cases h
      · cases h
  | cons c cs => exact ⟨c, cs, rfl⟩

lemma mapOpt_decorate (p : Line → Option Nat) :
    ∀ l : List Deadline, (∀ d ∈ l, (p d.when).isSome = true) →
      ∃ kds, mapOpt l (fun d => (p d.when).map fun n => (n, d)) = some kds ∧
        kds.map Prod.snd = l ∧ ∀ kd ∈ kds, p kd.2.when = some kd.1 := by
  intro l
  induction l with
  | nil => intro _; exact ⟨[], rfl, rfl, by simp⟩
  | cons d t ih =>
    intro hall
    obtain ⟨n, hn⟩ := Option.isSome_iff_exists.mp (hall d (by simp))
    obtain ⟨kds, h1, h2, h3⟩ := ih fun x hx => hall x (by simp [hx])
    refine ⟨(n, d) :: kds, ?_, by simp [h2], ?_⟩
    · simp [mapOpt, hn, h1]
    · intro kd hkd
      rcases List.mem_cons.mp hkd with rfl | hkd
      · exact hn
      · exact h3 kd hkd

lemma heading_ofJ_toJ (h : Heading) : Heading.ofJ h.toJ = some h := by
  simp +decide [Heading.toJ, Heading.ofJ, jGet, jStr, jNum, Option.bind]

lemma secOfJ_toJ (s : Option Heading) : secOfJ (secToJ s) = some s := by
  cases s with
  | none => rfl
  | some h =>
    show (Heading.ofJ (Heading.toJ h)).map some = some (some h)
    rw [heading_ofJ_toJ h]
    rfl

lemma reference_ofJ_toJ (r : Reference) : Reference.ofJ r.toJ = some r := by
  simp +decide [Reference.toJ, Reference.ofJ, jGet, jStr, jNum, secOfJ_toJ,
    Option.bind]

lemma deadline_ofJ_toJ (d : Deadline) : Deadline.ofJ d.toJ = some d := by
  simp +decide [Deadline.toJ, Deadline.ofJ, jGet, jStr, jNum, secOfJ_toJ,
    Option.bind]

lemma todo_ofJ_toJ (t : Todo) : Todo.ofJ t.toJ = some t := by
  simp +decide [Todo.toJ, Todo.ofJ, jGet, jStr, jNum, secOfJ_toJ, Option.bind]

lemma Index.validate_dump (idx : Index) :
    Index.validateJson idx.dumpJson = some idx := by
  have h1 := mapOpt_roundtrip Heading.ofJ Heading.toJ idx.headings
    fun a _ => heading_ofJ_toJ a
  have h2 := mapOpt_roundtrip Reference.ofJ Reference.toJ idx.references
    fun a _ => reference_ofJ_toJ a
  have h3 := mapOpt_roundtrip Deadline.ofJ Deadline.toJ idx.deadlines
    fun a _ => deadline_ofJ_toJ a
  have h4 := mapOpt_roundtrip Todo.ofJ Todo.toJ idx.todos
    fun a _ => todo_ofJ_toJ a
  simp +decide [Index.dumpJson, Index.validateJson, jGet, jArr, h1, h2, h3, h4,
    Option.bind]

lemma contains_iff_mem (l : Line) (c : Char) : l.contains c = true ↔ c ∈ l :=
  List.elem_iff

/-- Claim C1: for every `Index`, saving it with `Index.save` to a path and
then loading that path with `Index.load` yields an `Index` structurally equal
to the original (so all four record lists keep their length, order and field
values, and each optional section association is reconstructed exactly),
with no diagnostic printed. -/
theorem c1_save_load_roundtrip :
    ∀ (idx : Index) (path : Line) (fs : FS),
      Index.validateJson idx.dumpJson = some idx ∧
      Index.load path (Index.save idx path fs) =
        LoadOutcome.returned idx false := by
  intro idx path fs
  refine ⟨Index.validate_dump idx, ?_⟩
  simp [Index.load, Index.save, Index.validate_dump idx]

/-- Claim C2: `is_heading(current, next)` is true exactly when, after
trimming trailing whitespace from both lines, the trimmed current line has
length at least 3, the trimmed lengths are equal, and the trimmed next line
consists entirely of copies of its first character, that character being one
of the nine recognized heading-punctuation characters.  (The embedding is a
pure function, as the source function is.) -/
theorem c2_is_heading_characterization :
    ∀ curl nextl : Line, is_heading curl nextl = true ↔
      (3 ≤ (rstrip curl).length ∧
       (rstrip curl).length = (rstrip nextl).length ∧
       ∃ c, (rstrip nextl).head? = some c ∧ c ∈ HEADING_CHARS ∧
         ∀ x ∈ rstrip nextl, x = c) := by
  intro curl nextl
  simp only [is_heading]
  by_cases h3 : (rstrip curl).length < 3
  · rw [if_pos h3]
    constructor
    · intro h
      cases h
    · rintro ⟨ha, -⟩
      omega
  · rw [if_neg h3]
    by_cases hlen : (rstrip curl).length = (rstrip nextl).length
    · have hb : ((rstrip curl).length != (rstrip nextl).length) = false := by
        simp [hlen]
      rw [hb]
      simp only [Bool.false_eq_true, if_false]
      cases hn : rstrip nextl with
      | nil =>
        rw [hn] at hlen
        simp only [List.length_nil] at hlen
        omega
      | cons ch tl =>
        have hlen2 : (rstrip curl).length = (ch :: tl).length := by
          rw [← hn]
          exact hlen
        by_cases hch : HEADING_CHARS.contains ch = true
        · show (if (!HEADING_CHARS.contains ch) = true then false
              else (ch :: tl == List.replicate (ch :: tl).length ch)) = true ↔ _
          rw [hch]
          simp only [Bool.not_true, Bool.false_eq_true, if_false, beq_iff_eq]
          constructor
          · intro hrep
            refine ⟨by omega, hlen2, ch, by simp, (contains_iff_mem _ _).mp hch, ?_⟩
            exact (List.eq_replicate_iff.mp hrep).2
          · rintro ⟨-, -, c, hc, -, hall⟩
            simp only [List.head?_cons, Option.some_inj] at hc
            subst hc
            exact List.eq_replicate_iff.mpr ⟨rfl, hall⟩
        · have hchf : HEADING_CHARS.contains ch = false := by
            simpa using hch
          show (if (!HEADING_CHARS.contains ch) = true then false
              else (ch :: tl == List.replicate (ch :: tl).length ch)) = true ↔ _
          rw [hchf]
          simp only [Bool.not_false, if_true]
          constructor
          · intro h
            cases h
          · rintro ⟨-, -, c, hc, hmem, -⟩
            simp only [List.head?_cons, Option.some_inj] at hc
            subst hc
            exact absurd ((contains_iff_mem _ _).mpr hmem) (by simpa using hch)
    · have hb : ((rstrip curl).length != (rstrip nextl).length) = true := by
        simpa using hlen
      rw [hb]
      simp only [if_true]
      constructor
      · intro h
        cases h
      · rintro ⟨-, he, -⟩
        exact absurd he hlen

/-- Claim C3: `Index.load` returns an empty `Index` and prints a diagnostic,
without raising, exactly when reading the index file fails with an I/O
error; when the file is read successfully but its content is not a valid
serialized `Index`, the validation failure is not caught and propagates. -/
theorem c3_load_error_asymmetry :
    ∀ (path : Line) (fs : FS),
      (Index.load path fs = LoadOutcome.returned Index.empty true ↔
        fs path = none) ∧
      (∀ j, fs path = some j → Index.validateJson j = none →
        Index.load path fs = LoadOutcome.validationError) := by
  intro path fs
  constructor
  · cases hf : fs path with
    | none => simp [Index.load, hf]
    | some j =>
      simp only [Index.load, hf]
      cases hv : Index.validateJson j with
      | none =>
        constructor
        · intro h
          cases h
        · intro h
          cases h
      | some idx =>
        constructor
        · intro h
          cases h
        · intro h
          cases h
  · intro j hj hv
    simp [Index.load, hj, hv]

/-- Claim C3, witnessed at a file system holding an invalid document at the
index path: the load propagates a validation error. -/
theorem c3_load_error_witness :
    (fun _ : Line => some Jsn.null) (("index.json").data) = some Jsn.null ∧
    Index.validateJson Jsn.null = none ∧
    Index.load (("index.json").data) (fun _ : Line => some Jsn.null) =
      LoadOutcome.validationError :=
  ⟨rfl, rfl,
    (c3_load_error_asymmetry (("index.json").data)
      (fun _ : Line => some Jsn.null)).2 Jsn.null rfl rfl⟩

/-- Claim C4 (amended): for every deadline match on a scanned line, the
captured text is split at its first colon into a trimmed `when` (before) and
a trimmed `what` (after); a captured text without a colon makes the split
raise; and `parse_file` raises a fatal parse error for the file if and only
if some scanned current line (a non-final line not detected as a heading)
has a deadline match whose captured text contains no colon. -/
theorem c4_deadline_split :
    (∀ (file : Line) (i : Nat) (cur : Option Heading) (pre post : Line),
       (':') ∉ pre →
       mkDeadline file i cur (pre ++ (':') :: post) =
         some (Deadline.mk file i (strip post) (strip pre) cur)) ∧
    (∀ (file : Line) (i : Nat) (cur : Option Heading) (m : Line),
       (':') ∉ m → mkDeadline file i cur m = none) ∧
    (∀ (file : Line) (ls : List Line) (idx : Index),
       parse_file file ls idx = none ↔ anyBadScannedLine ls = true) := by
  refine ⟨?_, ?_, ?_⟩
  · intro file i cur pre post hpre
    rw [mkDeadline, splitFirstColon_first post pre hpre]
    rfl
  · intro file i cur m hm
    exact (mkDeadline_eq_none_iff file i cur m).mpr hm
  · intro file ls idx
    exact parseFrom_none_iff ls file 1 none idx

/-- Claim C4, witnessed at the spec's example: the captured text
`2025-01-01: renew cert` yields `when = "2025-01-01"` and
`what = "renew cert"`, while the captured text `nodate` makes the split
raise. -/
theorem c4_deadline_split_witness :
    ((':') ∉ (("2025-01-01").data) ∧
      mkDeadline (("a.rst").data) 1 none
          ((("2025-01-01").data) ++ (':') :: ((" renew cert").data)) =
        some (Deadline.mk (("a.rst").data) 1 (("renew cert").data)
          (("2025-01-01").data) none)) ∧
    ((':') ∉ (("nodate").data) ∧
      mkDeadline (("a.rst").data) 1 none (("nodate").data) = none) :=
  ⟨⟨by decide, c4_deadline_split.1 (("a.rst").data) 1 none
      (("2025-01-01").data) ((" renew cert").data) (by decide)⟩,
   ⟨by decide, c4_deadline_split.2.1 (("a.rst").data) 1 none
      (("nodate").data) (by decide)⟩⟩

/-- Claim C4 counterexample to the claim as stated: in a one-line file whose
single line is matched by the deadline pattern with a captured text
containing no colon, `parse_file` does not raise (the line is the file's
last line, so it is never scanned), and it appends no `Deadline`; so
"raises if and only if some matched deadline's captured text contains no
colon" fails in the only-if-absent direction. -/
theorem c4_counterexample :
    ((findall dlPre dlSuf ((":deadline:`nodate`").data)).any
        fun m => !(m.contains ':')) = true ∧
    parse_file (("a.rst").data) [(":deadline:`nodate`").data] Index.empty =
      some Index.empty := by
  exact ⟨by decide, rfl⟩

lemma recsOK_to_claim {ρ : Type} {fileOf : ρ → Line} {lineOf : ρ → Nat}
    {secOf : ρ → Option Heading} {file : Line} {n : Nat} {dH : List Heading}
    {dR : List ρ}
    (hH : ∀ h ∈ dH, h.file = file)
    (hOK : RecsOK fileOf lineOf secOf file 1 n dH none dR) :
    ∀ r ∈ dR, fileOf r = file ∧
      secOf r = ((dH.filter fun h => h.line < lineOf r).getLast?) ∧
      ∀ h, secOf r = some h → h ∈ dH ∧ h.file = file ∧ h.line ≤ lineOf r := by
  intro r hr
  obtain ⟨hf, -, -, hs⟩ := hOK r hr
  rw [opOr_none] at hs
  refine ⟨hf, hs, ?_⟩
  intro h hsh
  rw [hs] at hsh
  have hmem := mem_of_getLast? hsh
  rw [List.mem_filter] at hmem
  obtain ⟨hmemH, hlt⟩ := hmem
  have hlt' : h.line < lineOf r := by simpa using hlt
  exact ⟨hmemH, hH h hmemH, by omega⟩

/-- Claim C5: whenever a consecutive line pair at 1-based index `i` satisfies
`is_heading`, the scanning step appends a `Heading` whose `heading` is the
stripped current line, whose `level` is the first character of the underline,
whose `file` is the scanned file and whose `line` is `i`; it continues with
that heading as the current context, and no reference, deadline or todo is
recorded for line `i`. -/
theorem c5_heading_step :
    ∀ (file : Line) (i : Nat) (cur : Option Heading) (curl nextl : Line)
      (rest : List Line) (idx : Index),
      is_heading curl nextl = true →
      ∃ c cs h0, nextl = c :: cs ∧
        h0 = Heading.mk file i (strip curl) c ∧
        parseFileFrom file i cur (curl :: nextl :: rest) idx =
          parseFileFrom file (i + 1) (some h0) (nextl :: rest)
            { idx with headings := idx.headings ++ [h0] } ∧
        (∀ idx', parseFileFrom file i cur (curl :: nextl :: rest) idx = some idx' →
          h0 ∈ idx'.headings ∧
          (∀ r ∈ idx'.references, r ∉ idx.references → r.line ≠ i) ∧
          (∀ d ∈ idx'.deadlines, d ∉ idx.deadlines → d.line ≠ i) ∧
          (∀ t ∈ idx'.todos, t ∉ idx.todos → t.line ≠ i)) := by
  intro file i cur curl nextl rest idx hh
  obtain ⟨c, cs, rfl⟩ := is_heading_ne_nil hh
  have heq : parseFileFrom file i cur (curl :: (c :: cs) :: rest) idx =
      parseFileFrom file (i + 1) (some (Heading.mk file i (strip curl) c))
        ((c :: cs) :: rest)
        { idx with
            headings := idx.headings ++ [Heading.mk file i (strip curl) c] } := by
    simp only [parseFileFrom, if_pos hh]
    rfl
  refine ⟨c, cs, _, rfl, rfl, heq, ?_⟩
  intro idx' hidx
  rw [heq] at hidx
  obtain ⟨dH, dR, dD, dT, e1, e2, e3, e4, hH, hR, hD, hT⟩ :=
    parse_inv ((c :: cs) :: rest) file (i + 1)
      ((i + 1) + ((c :: cs) :: rest).length)
      (some (Heading.mk file i (strip curl) c)) _ _ (Nat.le_refl _) hidx
  refine ⟨?_, ?_, ?_, ?_⟩
  · rw [e1]
    simp
  · intro r hr hnot
    rw [e2] at hr
    rcases List.mem_append.mp hr with hr | hr
    · exact absurd hr hnot
    · have := (hR r hr).2.1
      omega
  · intro d hd hnot
    rw [e3] at hd
    rcases List.mem_append.mp hd with hd | hd
    · exact absurd hd hnot
    · have := (hD d hd).2.1
      omega
  · intro t ht hnot
    rw [e4] at ht
    rcases List.mem_append.mp ht with ht | ht
    · exact absurd ht hnot
    · have := (hT t ht).2.1
      omega

/-- Claim C6: a successful `parse_file` run only appends records; every
appended record's `section` is either `none` or the most recently appended
heading of the same scanned file with a smaller or equal line number (namely
the last heading, in append order, whose line precedes the record's line),
and never a heading carried over from the incoming index (so never one from
a previously parsed file). -/
theorem c6_section_invariant :
    ∀ (file : Line) (ls : List Line) (idx0 idx' : Index),
      parse_file file ls idx0 = some idx' →
      ∃ dH dR dD dT,
        idx'.headings = idx0.headings ++ dH ∧
        idx'.references = idx0.references ++ dR ∧
        idx'.deadlines = idx0.deadlines ++ dD ∧
        idx'.todos = idx0.todos ++ dT ∧
        (∀ h ∈ dH, h.file = file) ∧
        (∀ r ∈ dR, r.file = file ∧
          r.sec = ((dH.filter fun h => h.line < r.line).getLast?) ∧
          ∀ h, r.sec = some h → h ∈ dH ∧ h.file = file ∧ h.line ≤ r.line) ∧
        (∀ d ∈ dD, d.file = file ∧
          d.sec = ((dH.filter fun h => h.line < d.line).getLast?) ∧
          ∀ h, d.sec = some h → h ∈ dH ∧ h.file = file ∧ h.line ≤ d.line) ∧
        (∀ t ∈ dT, t.file = file ∧
          t.sec = ((dH.filter fun h => h.line < t.line).getLast?) ∧
          ∀ h, t.sec = some h → h ∈ dH ∧ h.file = file ∧ h.line ≤ t.line) := by
  intro file ls idx0 idx' hp
  obtain ⟨dH, dR, dD, dT, e1, e2, e3, e4, hH, hR, hD, hT⟩ :=
    parse_inv ls file 1 (1 + ls.length) none _ _ (Nat.le_refl _) hp
  have hHf : ∀ h ∈ dH, h.file = file := fun h hh => (hH h hh).1
  exact ⟨dH, dR, dD, dT, e1, e2, e3, e4, hHf,
    recsOK_to_claim hHf hR, recsOK_to_claim hHf hD, recsOK_to_claim hHf hT⟩

/-- Claim C9: a file with fewer than two lines contributes nothing to the
index, and in general every record appended by a successful `parse_file` run
has a line number between 1 and the number of lines minus one — so an
annotation or heading candidate on the file's last line is never recorded. -/
theorem c9_last_line_never_scanned :
    (∀ (file : Line) (ls : List Line) (idx : Index), ls.length < 2 →
        parse_file file ls idx = some idx) ∧
    (∀ (file : Line) (ls : List Line) (idx idx' : Index),
        parse_file file ls idx = some idx' →
        (∀ h ∈ idx'.headings, h ∉ idx.headings →
            1 ≤ h.line ∧ h.line + 1 ≤ ls.length) ∧
        (∀ r ∈ idx'.references, r ∉ idx.references →
            1 ≤ r.line ∧ r.line + 1 ≤ ls.length) ∧
        (∀ d ∈ idx'.deadlines, d ∉ idx.deadlines →
            1 ≤ d.line ∧ d.line + 1 ≤ ls.length) ∧
        (∀ t ∈ idx'.todos, t ∉ idx.todos →
            1 ≤ t.line ∧ t.line + 1 ≤ ls.length)) := by
  constructor
  · intro file ls idx hlen
    cases ls with
    | nil => rfl
    | cons a t =>
      cases t with
      | nil => rfl
      | cons b u =>
        simp only [List.length_cons] at hlen
        omega
  · intro file ls idx idx' hp
    obtain ⟨dH, dR, dD, dT, e1, e2, e3, e4, hH, hR, hD, hT⟩ :=
      parse_inv ls file 1 (1 + ls.length) none _ _ (Nat.le_refl _) hp
    refine ⟨?_, ?_, ?_, ?_⟩
    · intro h hh hnot
      rw [e1] at hh
      rcases List.mem_append.mp hh with hh | hh
      · exact absurd hh hnot
      · obtain ⟨-, hi, hb⟩ := hH h hh
        exact ⟨hi, by omega⟩
    · intro r hr hnot
      rw [e2] at hr
      rcases List.mem_append.mp hr with hr | hr
      · exact absurd hr hnot
      · obtain ⟨-, hi, hb, -⟩ := hR r hr
        exact ⟨hi, by omega⟩
    · intro d hd hnot
      rw [e3] at hd
      rcases List.mem_append.mp hd with hd | hd
      · exact absurd hd hnot
      · obtain ⟨-, hi, hb, -⟩ := hD d hd
        exact ⟨hi, by omega⟩
    · intro t ht hnot
      rw [e4] at ht
      rcases List.mem_append.mp ht with ht | ht
      · exact absurd ht hnot
      · obtain ⟨-, hi, hb, -⟩ := hT t ht
        exact ⟨hi, by omega⟩

/-- Claim C5, witnessed at the pair `Setup` / `-----`. -/
theorem c5_heading_step_witness :
    is_heading (("Setup").data) (("-----").data) = true ∧
    (∃ c cs h0, (("-----").data : Line) = c :: cs ∧
      h0 = Heading.mk (("a.rst").data) 1 (strip (("Setup").data)) c ∧
      parseFileFrom (("a.rst").data) 1 none
          [("Setup").data, ("-----").data] Index.empty =
        parseFileFrom (("a.rst").data) 2 (some h0) [("-----").data]
          { Index.empty with headings := Index.empty.headings ++ [h0] } ∧
      (∀ idx', parseFileFrom (("a.rst").data) 1 none
            [("Setup").data, ("-----").data] Index.empty = some idx' →
        h0 ∈ idx'.headings ∧
        (∀ r ∈ idx'.references, r ∉ Index.empty.references → r.line ≠ 1) ∧
        (∀ d ∈ idx'.deadlines, d ∉ Index.empty.deadlines → d.line ≠ 1) ∧
        (∀ t ∈ idx'.todos, t ∉ Index.empty.todos → t.line ≠ 1))) :=
  ⟨by decide, c5_heading_step (("a.rst").data) 1 none (("Setup").data)
    (("-----").data) [] Index.empty (by decide)⟩

/-- Claim C6, witnessed on a four-line file: a heading `Setup` underlined
with `-----`, then a todo annotation followed by a blank line; the todo's
section is the heading. -/
theorem c6_section_invariant_witness :
    parse_file (("a.rst").data)
        [("Setup").data, ("-----").data, (":todo:`write docs`").data,
          ("").data] Index.empty =
      some (Index.mk [Heading.mk (("a.rst").data) 1 (("Setup").data) '-'] [] []
        [Todo.mk (("a.rst").data) 3 (("write docs").data)
          (some (Heading.mk (("a.rst").data) 1 (("Setup").data) '-'))]) ∧
    (∃ dH dR dD dT,
      [Heading.mk (("a.rst").data) 1 (("Setup").data) '-']
          = ([] : List Heading) ++ dH ∧
      ([] : List Reference) = ([] : List Reference) ++ dR ∧
      ([] : List Deadline) = ([] : List Deadline) ++ dD ∧
      [Todo.mk (("a.rst").data) 3 (("write docs").data)
          (some (Heading.mk (("a.rst").data) 1 (("Setup").data) '-'))]
          = ([] : List Todo) ++ dT ∧
      (∀ h ∈ dH, h.file = ("a.rst").data) ∧
      (∀ r ∈ dR, r.file = ("a.rst").data ∧
        r.sec = ((dH.filter fun h => h.line < r.line).getLast?) ∧
        ∀ h, r.sec = some h →
          h ∈ dH ∧ h.file = ("a.rst").data ∧ h.line ≤ r.line) ∧
      (∀ d ∈ dD, d.file = ("a.rst").data ∧
        d.sec = ((dH.filter fun h => h.line < d.line).getLast?) ∧
        ∀ h, d.sec = some h →
          h ∈ dH ∧ h.file = ("a.rst").data ∧ h.line ≤ d.line) ∧
      (∀ t ∈ dT, t.file = ("a.rst").data ∧
        t.sec = ((dH.filter fun h => h.line < t.line).getLast?) ∧
        ∀ h, t.sec = some h →
          h ∈ dH ∧ h.file = ("a.rst").data ∧ h.line ≤ t.line)) :=
  ⟨by decide,
    c6_section_invariant (("a.rst").data)
      [("Setup").data, ("-----").data, (":todo:`write docs`").data, ("").data]
      Index.empty
      (Index.mk [Heading.mk (("a.rst").data) 1 (("Setup").data) '-'] [] []
        [Todo.mk (("a.rst").data) 3 (("write docs").data)
          (some (Heading.mk (("a.rst").data) 1 (("Setup").data) '-'))])
      (by decide)⟩

/-- Claim C9, witnessed on a one-line file carrying a todo annotation (which
is therefore never recorded) and on a two-line file with a reference. -/
theorem c9_last_line_never_scanned_witness :
    (([(":todo:`x`").data] : List Line).length < 2 ∧
      parse_file (("a.rst").data) [(":todo:`x`").data] Index.empty =
        some Index.empty) ∧
    (parse_file (("b.rst").data) [("see `w`_").data, ("").data] Index.empty =
        some (Index.mk [] [Reference.mk (("b.rst").data) 1 (("w").data) none]
          [] []) ∧
      ((∀ h ∈ (Index.mk [] [Reference.mk (("b.rst").data) 1 (("w").data) none]
            [] []).headings, h ∉ Index.empty.headings →
          1 ≤ h.line ∧ h.line + 1 ≤ ([("see `w`_").data, ("").data] : List Line).length) ∧
       (∀ r ∈ (Index.mk [] [Reference.mk (("b.rst").data) 1 (("w").data) none]
            [] []).references, r ∉ Index.empty.references →
          1 ≤ r.line ∧ r.line + 1 ≤ ([("see `w`_").data, ("").data] : List Line).length) ∧
       (∀ d ∈ (Index.mk [] [Reference.mk (("b.rst").data) 1 (("w").data) none]
            [] []).deadlines, d ∉ Index.empty.deadlines →
          1 ≤ d.line ∧ d.line + 1 ≤ ([("see `w`_").data, ("").data] : List Line).length) ∧
       (∀ t ∈ (Index.mk [] [Reference.mk (("b.rst").data) 1 (("w").data) none]
            [] []).todos, t ∉ Index.empty.todos →
          1 ≤ t.line ∧ t.line + 1 ≤ ([("see `w`_").data, ("").data] : List Line).length))) :=
  ⟨⟨by decide, c9_last_line_never_scanned.1 (("a.rst").data)
      [(":todo:`x`").data] Index.empty (by decide)⟩,
   ⟨by decide, c9_last_line_never_scanned.2 (("b.rst").data)
      [("see `w`_").data, ("").data] Index.empty
      (Index.mk [] [Reference.mk (("b.rst").data) 1 (("w").data) none] [] [])
      (by decide)⟩⟩

/-- Claim C7: whenever every deadline's `when` field parses as a date (for an
arbitrary date parser `p` into a linearly ordered value), `deadline_jumplist`
prints the deadline records as a permutation of the stored list arranged in
ascending order of the parsed `when` value, regardless of stored order. -/
theorem c7_deadline_jumplist_sorted :
    ∀ (p : Line → Option Nat) (idx : Index),
      (∀ d ∈ idx.deadlines, (p d.when).isSome = true) →
      ∃ out, deadline_jumplist p idx = some out ∧
        out.Perm idx.deadlines ∧
        out.Pairwise fun a b =>
          ∃ x y, p a.when = some x ∧ p b.when = some y ∧ x ≤ y := by
  intro p idx hall
  obtain ⟨kds, h1, h2, h3⟩ := mapOpt_decorate p idx.deadlines hall
  refine ⟨(List.insertionSort keyLe kds).map Prod.snd, ?_, ?_, ?_⟩
  · simp [deadline_jumplist, h1]
  · have hperm := (List.perm_insertionSort keyLe kds).map Prod.snd
    rw [h2] at hperm
    exact hperm
  · have hsorted : (List.insertionSort keyLe kds).Pairwise keyLe :=
      List.sorted_insertionSort keyLe kds
    rw [List.pairwise_map]
    refine List.Pairwise.imp_of_mem ?_ hsorted
    intro a b ha hb hle
    have ha' : a ∈ kds := (List.mem_insertionSort keyLe).mp ha
    have hb' : b ∈ kds := (List.mem_insertionSort keyLe).mp hb
    exact ⟨a.1, b.1, h3 a ha', h3 b hb', hle⟩

/-- Claim C7, witnessed with string length as the date order: two deadlines
stored out of key order come back sorted. -/
theorem c7_deadline_jumplist_sorted_witness :
    (∀ d ∈ (Index.mk [] []
        [Deadline.mk (("a.rst").data) 1 (("pay").data) (("aaa").data) none,
         Deadline.mk (("a.rst").data) 2 (("call").data) (("a").data) none]
        []).deadlines,
      ((fun s : Line => some s.length) d.when).isSome = true) ∧
    (∃ out, deadline_jumplist (fun s : Line => some s.length)
        (Index.mk [] []
          [Deadline.mk (("a.rst").data) 1 (("pay").data) (("aaa").data) none,
           Deadline.mk (("a.rst").data) 2 (("call").data) (("a").data) none]
          []) = some out ∧
      out.Perm (Index.mk [] []
          [Deadline.mk (("a.rst").data) 1 (("pay").data) (("aaa").data) none,
           Deadline.mk (("a.rst").data) 2 (("call").data) (("a").data) none]
          []).deadlines ∧
      out.Pairwise fun a b =>
        ∃ x y, (fun s : Line => some s.length) a.when = some x ∧
          (fun s : Line => some s.length) b.when = some y ∧ x ≤ y) :=
  ⟨by decide,
    c7_deadline_jumplist_sorted (fun s : Line => some s.length)
      (Index.mk [] []
        [Deadline.mk (("a.rst").data) 1 (("pay").data) (("aaa").data) none,
         Deadline.mk (("a.rst").data) 2 (("call").data) (("a").data) none]
        []) (by decide)⟩

/-- Claim C8: `jump_to_heading` prints one tab-separated file/line entry per
stored heading whose text equals the target, in stored order (so multiple
matches are all printed), and prints nothing when no heading matches. -/
theorem c8_jump_to_heading_matches :
    ∀ (target : Line) (idx : Index),
      jump_to_heading target idx =
        ((idx.headings.filter fun h => target == h.heading).map
          fun h => h.file ++ tabCh :: natLine h.line) ∧
      ((∀ h ∈ idx.headings, h.heading ≠ target) →
        jump_to_heading target idx = []) := by
  intro target idx
  have h1 : jump_to_heading target idx =
      ((idx.headings.filter fun h => target == h.heading).map
        fun h => h.file ++ tabCh :: natLine h.line) := by
    have hfold := foldl_echo (fun h : Heading => target == h.heading)
      (fun h : Heading => h.file ++ tabCh :: natLine h.line) idx.headings []
    simpa [jump_to_heading] using hfold
  refine ⟨h1, ?_⟩
  intro hnone
  rw [h1]
  have hnil : idx.headings.filter (fun h => target == h.heading) = [] := by
    rw [List.filter_eq_nil_iff]
    intro h hh hc
    rw [beq_iff_eq] at hc
    exact hnone h hh hc.symm
  rw [hnil]
  rfl

/-- Claim C8, witnessed at a target matching no stored heading. -/
theorem c8_jump_to_heading_matches_witness :
    (∀ h ∈ (Index.mk [Heading.mk (("a.rst").data) 1 (("Setup").data) '-']
        [] [] []).headings, h.heading ≠ ("Other").data) ∧
    jump_to_heading (("Other").data)
        (Index.mk [Heading.mk (("a.rst").data) 1 (("Setup").data) '-']
          [] [] []) = [] :=
  ⟨by decide,
    (c8_jump_to_heading_matches (("Other").data)
      (Index.mk [Heading.mk (("a.rst").data) 1 (("Setup").data) '-']
        [] [] [])).2 (by decide)⟩

/-- Claim C10: `heading_jumplist` and `print_all_headings` print exactly the
headings whose `level` is `=` or `-`, while `jump_to_heading` applies no
level filter: every stored heading whose text equals the target is printed,
whatever its level. -/
theorem c10_major_heading_filter :
    (∀ (sg sy : Line → Line) (idx : Index),
       heading_jumplist sg sy idx =
         ((idx.headings.filter fun h => h.level == '=' || h.level == '-').map
           fun h =>
             h.heading ++ tabCh :: (sy h.file ++ tabCh :: sg (natLine h.line)))) ∧
    (∀ idx : Index,
       print_all_headings idx =
         ((idx.headings.filter fun h => h.level == '=' || h.level == '-').map
           fun h => h.heading)) ∧
    (∀ (target : Line) (idx : Index) (h : Heading), h ∈ idx.headings →
       h.heading = target →
       (h.file ++ tabCh :: natLine h.line) ∈ jump_to_heading target idx) := by
  refine ⟨?_, ?_, ?_⟩
  · intro sg sy idx
    have hfold := foldl_echo
      (fun h : Heading => h.level == '=' || h.level == '-')
      (fun h : Heading =>
        h.heading ++ tabCh :: (sy h.file ++ tabCh :: sg (natLine h.line)))
      idx.headings []
    simpa [heading_jumplist] using hfold
  · intro idx
    have hfold := foldl_echo
      (fun h : Heading => h.level == '=' || h.level == '-')
      (fun h : Heading => h.heading) idx.headings []
    simpa [print_all_headings] using hfold
  · intro target idx h hmem ht
    have h1 : jump_to_heading target idx =
        ((idx.headings.filter fun h => target == h.heading).map
          fun h => h.file ++ tabCh :: natLine h.line) := by
      have hfold := foldl_echo (fun h : Heading => target == h.heading)
        (fun h : Heading => h.file ++ tabCh :: natLine h.line) idx.headings []
      simpa [jump_to_heading] using hfold
    rw [h1]
    exact List.mem_map.mpr
      ⟨h, List.mem_filter.mpr ⟨hmem, by simp [ht]⟩, rfl⟩

/-- Claim C10, witnessed with a non-major heading level `~`:
`jump_to_heading` still prints it. -/
theorem c10_major_heading_filter_witness :
    (Heading.mk (("a.rst").data) 1 (("Deep").data) '~') ∈
      (Index.mk [Heading.mk (("a.rst").data) 1 (("Deep").data) '~']
        [] [] []).headings ∧
    (Heading.mk (("a.rst").data) 1 (("Deep").data) '~').heading
      = ("Deep").data ∧
    ((Heading.mk (("a.rst").data) 1 (("Deep").data) '~').file ++
        tabCh :: natLine
          (Heading.mk (("a.rst").data) 1 (("Deep").data) '~').line) ∈
      jump_to_heading (("Deep").data)
        (Index.mk [Heading.mk (("a.rst").data) 1 (("Deep").data) '~']
          [] [] []) :=
  ⟨by decide, rfl,
    c10_major_heading_filter.2.2 (("Deep").data)
      (Index.mk [Heading.mk (("a.rst").data) 1 (("Deep").data) '~'] [] [] [])
      (Heading.mk (("a.rst").data) 1 (("Deep").data) '~') (by decide) rfl⟩
